import Mathlib

/-!
Verification of the rotation shelf maintainer (rotate_media.py).

The script keeps a bounded set of symbolic links (the rotation shelf)
pointing into a media archive.  We give a shallow embedding of the
script: the filesystem is modelled by explicit lists of entries, the
run-state file by an association list of JSON-like values, and the
whole `main` pass by a pure function returning `Except`.
-/

namespace RotateMedia

/-- JSON-like values stored in the run-state object. -/
inductive JVal where
  | num (n : Int)
  | str (s : String)
deriving DecidableEq, Repr

/-- A parsed JSON object, as an association list in insertion order
(the model of a Python dict). -/
abbrev SDict := List (String × JVal)

/-- Python dict.get with a default value. -/
def dictGet (d : SDict) (k : String) (dflt : JVal) : JVal :=
  match d.lookup k with
  | some v => v
  | none => dflt

/-- Python dict item assignment: overwrite the value in place if the key
exists, otherwise append the new pair at the end. -/
def dictSet : SDict → String → JVal → SDict
  | [], k, v => [(k, v)]
  | (k2, v2) :: rest, k, v =>
      if k2 = k then (k2, v) :: rest else (k2, v2) :: dictSet rest k v

/-- Content of the persisted state file: a JSON object, or text that
json.load rejects. `none` at the use site stands for an absent file. -/
inductive StateFile where
  | valid (d : SDict)
  | invalid
deriving DecidableEq, Repr

/-- load_state: return a default when the file is absent; otherwise
json.load the content, which raises (error) on malformed input. -/
def loadState : Option StateFile → Except Unit SDict
  | none => .ok [("last_run", JVal.num 0)]
  | some (.valid d) => .ok d
  | some .invalid => .error ()

/-- Configuration constants of the script. -/
structure Config where
  maxRotationItems : Int
  linkMaxAgeDays : Int
deriving DecidableEq, Repr

/-- The constants as set in the script: MAX_ROTATION_ITEMS = 1000,
LINK_MAX_AGE_DAYS = 30. -/
def defaultConfig : Config := { maxRotationItems := 1000, linkMaxAgeDays := 30 }

/-- A direct child of the archive directory.  `present` records whether
the entry still exists when item.stat() is attempted (stat of a vanished
entry raises FileNotFoundError). -/
structure ArchiveItem where
  name : String
  mtime : Int
  isDirOrFile : Bool
  present : Bool
deriving DecidableEq, Repr

/-- IGNORE_NAMES from the script. -/
def IGNORE_NAMES : List String := [".DS_Store", "@eaDir", ".stfolder", ".stversions"]

/-- scan_movies: keep direct children that are not noise names and are a
directory or a regular file. -/
def scanMovies (archive : List ArchiveItem) : List ArchiveItem :=
  archive.filter (fun e => !(IGNORE_NAMES.contains e.name) && e.isDirOrFile)

/-- A direct child of the rotation directory.  `mtime` is the lstat
timestamp of the entry itself; `targetMtime` and `targetExists` describe
the entry the link points at (meaningless for non-links); `present`
records whether the entry still exists when lstat is attempted. -/
structure ShelfEntry where
  name : String
  isLink : Bool
  mtime : Int
  targetMtime : Int
  targetExists : Bool
  present : Bool
deriving DecidableEq, Repr

/-- list_rotation_links: the symbolic links among the shelf children. -/
def listRotationLinks (shelf : List ShelfEntry) : List ShelfEntry :=
  shelf.filter (fun e => e.isLink)

/-- The age cutoff used by remove_old_links. -/
def cutoff (cfg : Config) (now : Int) : Int :=
  now - cfg.linkMaxAgeDays * 24 * 60 * 60

/-- Whether remove_old_links unlinks a given link.  lstat is a stat of
the link itself, so it succeeds even when the target is gone; it raises
FileNotFoundError only when the link entry itself has vanished
(`present = false`), and that branch unlinks and counts it.  Otherwise
the link is removed exactly when its own mtime is before the cutoff. -/
def linkRemoved (cfg : Config) (now : Int) (l : ShelfEntry) : Bool :=
  !l.present || decide (l.mtime < cutoff cfg now)

/-- remove_old_links: the count of removed links. -/
def removeOldLinks (cfg : Config) (now : Int) (links : List ShelfEntry) : Nat :=
  (links.filter (linkRemoved cfg now)).length

/-- The shelf directory after remove_old_links has run over its listed
links: a link is gone when it was unlinked (or had already vanished);
non-link entries are never touched. -/
def shelfAfterEvict (cfg : Config) (now : Int) (shelf : List ShelfEntry) : List ShelfEntry :=
  shelf.filter (fun e => !(e.isLink && linkRemoved cfg now e))

/-- Outcome of one create_link call. -/
inductive LinkResult where
  | created
  | skippedExisting
  | errorLogged
deriving DecidableEq, Repr

/-- Path.exists follows symbolic links: true when some entry occupies the
name and is either a non-link or a link whose target exists. -/
def pathExists (shelf : List ShelfEntry) (name : String) : Bool :=
  shelf.any (fun e => e.name = name && (!e.isLink || e.targetExists))

/-- Whether any directory entry (of any kind, dangling links included)
occupies the name; this is what makes os.symlink raise FileExistsError. -/
def occupied (shelf : List ShelfEntry) (name : String) : Bool :=
  shelf.any (fun e => e.name = name)

/-- The link that os.symlink creates: its own mtime is the creation
time, and its target is the archive item, which exists. -/
def mkLink (name : String) (targetMtime now : Int) : ShelfEntry :=
  { name := name, isLink := true, mtime := now, targetMtime := targetMtime,
    targetExists := true, present := true }

/-- create_link: skip when Path.exists holds of the link path; otherwise
os.symlink either creates the link or raises (FileExistsError when a
dangling link occupies the path), and the exception is caught and
logged. -/
def createLink (shelf : List ShelfEntry) (target : ArchiveItem) (now : Int) :
    LinkResult × List ShelfEntry :=
  if pathExists shelf target.name then (.skippedExisting, shelf)
  else if occupied shelf target.name then (.errorLogged, shelf)
  else (.created, shelf ++ [mkLink target.name target.mtime now])

/-- The comparison `mtime > last_run_ts`: fine when the stored value is
a number, a TypeError (error) when it is a string. -/
def cmpGtLastRun (mtime : Int) : JVal → Except Unit Bool
  | .num n => .ok (decide (n < mtime))
  | .str _ => .error ()

/-- The classification loop of main: skip core names, skip entries whose
stat raises FileNotFoundError, and put each remaining item into the new
list (as an (mtime, item) pair) when its mtime exceeds last_run, else
into the old list. -/
def classify (core : List String) (lrv : JVal) :
    List ArchiveItem → Except Unit (List (Int × ArchiveItem) × List ArchiveItem)
  | [] => .ok ([], [])
  | item :: rest =>
    if core.contains item.name then classify core lrv rest
    else if !item.present then classify core lrv rest
    else
      match cmpGtLastRun item.mtime lrv with
      | .error e => .error e
      | .ok isNew =>
        match classify core lrv rest with
        | .error e => .error e
        | .ok (ns, os) =>
          if isNew then .ok ((item.mtime, item) :: ns, os) else .ok (ns, item :: os)

/-- State threaded through the two link-creation loops of main. -/
structure WaveState where
  shelf : List ShelfEntry
  added : Nat
  createdNames : List String
deriving DecidableEq, Repr

/-- One creation loop of main: walk the candidates, break when the added
count has reached to_fill, skip names already present as links, and
otherwise call create_link (which bumps the added count only when a link
is actually created). -/
def runWave (now : Int) (toFill : Int) (linkNames : List String) :
    List ArchiveItem → WaveState → WaveState
  | [], ws => ws
  | item :: rest, ws =>
    if toFill ≤ (ws.added : Int) then ws
    else if linkNames.contains item.name then runWave now toFill linkNames rest ws
    else
      match createLink ws.shelf item now with
      | (.created, shelf2) =>
        runWave now toFill linkNames rest
          ⟨shelf2, ws.added + 1, ws.createdNames ++ [item.name]⟩
      | (_, shelf2) =>
        runWave now toFill linkNames rest ⟨shelf2, ws.added, ws.createdNames⟩

/-- Observable result of one full pass of main. -/
structure RunOutput where
  shelf : List ShelfEntry
  removedCount : Nat
  createdNames : List String
  savedState : SDict
deriving DecidableEq, Repr

/-- Sort order of the new wave: by recorded mtime, newest first (the
stable sort with reverse=True of the script). -/
def newOrder (a b : Int × ArchiveItem) : Prop := b.1 ≤ a.1

instance : DecidableRel newOrder := fun a b => inferInstanceAs (Decidable (b.1 ≤ a.1))

/-- Python str.lower applied to a name, modelled character by
character. -/
def lowerName (s : String) : List Char := s.data.map Char.toLower

/-- Python string comparison: lexicographic on code points. -/
def charListLe : List Char → List Char → Bool
  | [], _ => true
  | _ :: _, [] => false
  | a :: as, b :: bs => if a < b then true else if b < a then false else charListLe as bs

/-- Sort order of the old wave: by lowercased name, ascending. -/
def oldOrder (a b : ArchiveItem) : Prop :=
  charListLe (lowerName a.name) (lowerName b.name) = true

instance : DecidableRel oldOrder := fun a b =>
  inferInstanceAs (Decidable (charListLe (lowerName a.name) (lowerName b.name) = true))

/-- The part of main that runs after load_state and the classification
loop have succeeded: evict stale links, re-list, sort the two
partitions, run the two creation waves, and save the new last_run. -/
def runCore (cfg : Config) (state : SDict) (shelf0 : List ShelfEntry)
    (newMovies : List (Int × ArchiveItem)) (oldMovies : List ArchiveItem)
    (now : Int) : RunOutput :=
  let removed := removeOldLinks cfg now (listRotationLinks shelf0)
  let shelf1 := shelfAfterEvict cfg now shelf0
  let currentLinks := listRotationLinks shelf1
  let currentLinkNames := currentLinks.map (fun p => p.name)
  let sortedNew := (List.insertionSort newOrder newMovies).map (fun t => t.2)
  let sortedOld := List.insertionSort oldOrder oldMovies
  let toFill : Int := cfg.maxRotationItems - (currentLinks.length : Int)
  let ws1 := runWave now toFill currentLinkNames sortedNew ⟨shelf1, 0, []⟩
  let ws2 := if (ws1.added : Int) < toFill
             then runWave now toFill currentLinkNames sortedOld ws1
             else ws1
  { shelf := ws2.shelf, removedCount := removed,
    createdNames := ws2.createdNames,
    savedState := dictSet state "last_run" (JVal.num now) }

/-- One full pass of main, as a pure function of the world it reads:
state file content, core names, shelf directory, archive directory, and
the clock.  Uncaught exceptions (corrupt state JSON, a TypeError in the
mtime comparison) surface as `Except.error`. -/
def mainRun (cfg : Config) (stateContent : Option StateFile) (coreNames : List String)
    (shelf0 : List ShelfEntry) (archive : List ArchiveItem) (now : Int) :
    Except Unit RunOutput :=
  match loadState stateContent with
  | .error e => .error e
  | .ok state =>
    match classify coreNames (dictGet state "last_run" (JVal.num 0)) (scanMovies archive) with
    | .error e => .error e
    | .ok (newMovies, oldMovies) =>
      .ok (runCore cfg state shelf0 newMovies oldMovies now)

/-! ### Dictionary lemmas -/

theorem lookup_dictSet_self (d : SDict) (k : String) (v : JVal) :
    (dictSet d k v).lookup k = some v := by
  induction d with
  | nil => simp [dictSet, List.lookup]
  | cons p rest ih =>
    obtain ⟨k2, v2⟩ := p
    by_cases h : k2 = k
    · subst h; simp [dictSet, List.lookup]
    · have hb : (k == k2) = false := beq_eq_false_iff_ne.mpr (fun hh => h hh.symm)
      simp [dictSet, if_neg h, List.lookup, hb, ih]

theorem lookup_dictSet_ne (d : SDict) (k k2 : String) (v : JVal) (h : k2 ≠ k) :
    (dictSet d k v).lookup k2 = d.lookup k2 := by
  have hb : (k2 == k) = false := beq_eq_false_iff_ne.mpr h
  induction d with
  | nil => simp [dictSet, List.lookup, hb]
  | cons p rest ih =>
    obtain ⟨k3, v3⟩ := p
    by_cases h3 : k3 = k
    · subst h3
      simp [dictSet, List.lookup, hb]
    · simp only [dictSet, if_neg h3, List.lookup, ih]

theorem dictGet_dictSet_self (d : SDict) (k : String) (v dflt : JVal) :
    dictGet (dictSet d k v) k dflt = v := by
  simp [dictGet, lookup_dictSet_self]

/-! ### Classification lemmas -/

/-- The classification loop specialised to a numeric stored last_run, as
a total function. -/
def classifyNum (core : List String) (n : Int) :
    List ArchiveItem → List (Int × ArchiveItem) × List ArchiveItem
  | [] => ([], [])
  | item :: rest =>
    let p := classifyNum core n rest
    if core.contains item.name then p
    else if !item.present then p
    else if n < item.mtime then ((item.mtime, item) :: p.1, p.2)
    else (p.1, item :: p.2)

theorem classify_num_eq (core : List String) (n : Int) (items : List ArchiveItem) :
    classify core (JVal.num n) items = .ok (classifyNum core n items) := by
  induction items with
  | nil => rfl
  | cons item rest ih =>
    by_cases h1 : item.name ∈ core
    · simp [classify, classifyNum, h1, ih]
    · by_cases h2 : item.present = true
      · by_cases h3 : n < item.mtime <;>
          simp [classify, classifyNum, h1, h2, h3, cmpGtLastRun, ih]
      · simp only [Bool.not_eq_true] at h2
        simp [classify, classifyNum, h1, h2, ih]

theorem classify_ok_sound (core : List String) (lrv : JVal) (items : List ArchiveItem) :
    ∀ (ns : List (Int × ArchiveItem)) (os : List ArchiveItem),
      classify core lrv items = .ok (ns, os) →
      (∀ p ∈ ns, p.2 ∈ items ∧ p.2.name ∉ core ∧ p.2.present = true ∧
        p.1 = p.2.mtime) ∧
      (∀ i ∈ os, i ∈ items ∧ i.name ∉ core ∧ i.present = true) := by
  induction items with
  | nil =>
    intro ns os h
    simp only [classify, Except.ok.injEq, Prod.mk.injEq] at h
    obtain ⟨h1, h2⟩ := h
    subst h1; subst h2
    simp
  | cons item rest ih =>
    intro ns os h
    by_cases h1 : item.name ∈ core
    · simp only [classify, List.elem_iff.symm] at h
      rw [if_pos (List.elem_iff.mpr h1)] at h
      obtain ⟨hn, ho⟩ := ih ns os h
      refine ⟨fun p hp => ?_, fun i hi => ?_⟩
      · obtain ⟨hm, hc, hpr, hmt⟩ := hn p hp
        exact ⟨List.mem_cons_of_mem _ hm, hc, hpr, hmt⟩
      · obtain ⟨hm, hc, hpr⟩ := ho i hi
        exact ⟨List.mem_cons_of_mem _ hm, hc, hpr⟩
    · by_cases h2 : item.present = true
      · have hcc : (core.contains item.name) = false := by
          simp [List.elem_iff, h1]
        simp only [classify, hcc, Bool.false_eq_true, if_false, h2, Bool.not_true] at h
        cases hc : cmpGtLastRun item.mtime lrv with
        | error e => rw [hc] at h; exact absurd h (by simp)
        | ok isNew =>
          rw [hc] at h
          cases hr : classify core lrv rest with
          | error e => rw [hr] at h; exact absurd h (by simp)
          | ok p =>
            obtain ⟨ns2, os2⟩ := p
            rw [hr] at h
            obtain ⟨hn, ho⟩ := ih ns2 os2 hr
            cases isNew with
            | true =>
              simp only [eq_self_iff_true, if_true, Except.ok.injEq, Prod.mk.injEq] at h
              obtain ⟨hns, hos⟩ := h
              subst hns; subst hos
              refine ⟨fun p hp => ?_, fun i hi => ?_⟩
              · rcases List.mem_cons.mp hp with hp | hp
                · subst hp
                  exact ⟨List.mem_cons_self _ _, h1, h2, rfl⟩
                · obtain ⟨hm, hc2, hpr, hmt⟩ := hn p hp
                  exact ⟨List.mem_cons_of_mem _ hm, hc2, hpr, hmt⟩
              · obtain ⟨hm, hc2, hpr⟩ := ho i hi
                exact ⟨List.mem_cons_of_mem _ hm, hc2, hpr⟩
            | false =>
              simp only [Bool.false_eq_true, if_false, Except.ok.injEq, Prod.mk.injEq] at h
              obtain ⟨hns, hos⟩ := h
              subst hns; subst hos
              refine ⟨fun p hp => ?_, fun i hi => ?_⟩
              · obtain ⟨hm, hc2, hpr, hmt⟩ := hn p hp
                exact ⟨List.mem_cons_of_mem _ hm, hc2, hpr, hmt⟩
              · rcases List.mem_cons.mp hi with hi | hi
                · subst hi
                  exact ⟨List.mem_cons_self _ _, h1, h2⟩
                · obtain ⟨hm, hc2, hpr⟩ := ho i hi
                  exact ⟨List.mem_cons_of_mem _ hm, hc2, hpr⟩
      · have hcc : (core.contains item.name) = false := by
          simp [List.elem_iff, h1]
        simp only [Bool.not_eq_true] at h2
        simp only [classify, hcc, Bool.false_eq_true, if_false, h2, Bool.not_false,
          if_true] at h
        obtain ⟨hn, ho⟩ := ih ns os h
        refine ⟨fun p hp => ?_, fun i hi => ?_⟩
        · obtain ⟨hm, hc, hpr, hmt⟩ := hn p hp
          exact ⟨List.mem_cons_of_mem _ hm, hc, hpr, hmt⟩
        · obtain ⟨hm, hc, hpr⟩ := ho i hi
          exact ⟨List.mem_cons_of_mem _ hm, hc, hpr⟩

theorem classify_ok_complete (core : List String) (lrv : JVal) (items : List ArchiveItem) :
    ∀ (ns : List (Int × ArchiveItem)) (os : List ArchiveItem),
      classify core lrv items = .ok (ns, os) →
      ∀ i ∈ items, i.name ∉ core → i.present = true →
        (∃ m, (m, i) ∈ ns) ∨ i ∈ os := by
  induction items with
  | nil =>
    intro ns os _ i hi
    exact absurd hi (List.not_mem_nil i)
  | cons item rest ih =>
    intro ns os h i hi hcore hpres
    by_cases h1 : item.name ∈ core
    · rw [show classify core lrv (item :: rest) = classify core lrv rest from by
        simp only [classify]; rw [if_pos (List.elem_iff.mpr h1)]] at h
      rcases List.mem_cons.mp hi with hii | hii
      · subst hii; exact absurd h1 hcore
      · exact ih ns os h i hii hcore hpres
    · by_cases h2 : item.present = true
      · have hcc : (core.contains item.name) = false := by
          simp [List.elem_iff, h1]
        simp only [classify, hcc, Bool.false_eq_true, if_false, h2, Bool.not_true] at h
        cases hc : cmpGtLastRun item.mtime lrv with
        | error e => rw [hc] at h; exact absurd h (by simp)
        | ok isNew =>
          rw [hc] at h
          cases hr : classify core lrv rest with
          | error e => rw [hr] at h; exact absurd h (by simp)
          | ok p =>
            obtain ⟨ns2, os2⟩ := p
            rw [hr] at h
            rcases List.mem_cons.mp hi with hii | hii
            · subst hii
              cases isNew with
              | true =>
                simp only [eq_self_iff_true, if_true, Except.ok.injEq, Prod.mk.injEq] at h
                exact Or.inl ⟨i.mtime, h.1 ▸ List.mem_cons_self _ _⟩
              | false =>
                simp only [Bool.false_eq_true, if_false, Except.ok.injEq,
                  Prod.mk.injEq] at h
                exact Or.inr (h.2 ▸ List.mem_cons_self _ _)
            · have hrec := ih ns2 os2 hr i hii hcore hpres
              cases isNew with
              | true =>
                simp only [eq_self_iff_true, if_true, Except.ok.injEq, Prod.mk.injEq] at h
                rcases hrec with ⟨m, hm⟩ | hm
                · exact Or.inl ⟨m, h.1 ▸ List.mem_cons_of_mem _ hm⟩
                · exact Or.inr (h.2 ▸ hm)
              | false =>
                simp only [Bool.false_eq_true, if_false, Except.ok.injEq,
                  Prod.mk.injEq] at h
                rcases hrec with ⟨m, hm⟩ | hm
                · exact Or.inl ⟨m, h.1 ▸ hm⟩
                · exact Or.inr (h.2 ▸ List.mem_cons_of_mem _ hm)
      · have hcc : (core.contains item.name) = false := by
          simp [List.elem_iff, h1]
        simp only [Bool.not_eq_true] at h2
        simp only [classify, hcc, Bool.false_eq_true, if_false, h2, Bool.not_false,
          if_true] at h
        rcases List.mem_cons.mp hi with hii | hii
        · subst hii; rw [h2] at hpres; exact absurd hpres (by simp)
        · exact ih ns os h i hii hcore hpres

theorem classify_ok_perm (core : List String) (lrv : JVal) :
    ∀ (items : List ArchiveItem) (ns : List (Int × ArchiveItem)) (os : List ArchiveItem),
      classify core lrv items = .ok (ns, os) →
      (ns.map (fun p => p.2) ++ os).Perm
        (items.filter (fun i => !(core.contains i.name) && i.present)) := by
  intro items
  induction items with
  | nil =>
    intro ns os h
    simp only [classify, Except.ok.injEq, Prod.mk.injEq] at h
    obtain ⟨h1, h2⟩ := h
    subst h1; subst h2
    simp
  | cons item rest ih =>
    intro ns os h
    by_cases h1 : item.name ∈ core
    · rw [show classify core lrv (item :: rest) = classify core lrv rest from by
        simp only [classify]; rw [if_pos (List.elem_iff.mpr h1)]] at h
      rw [List.filter_cons_of_neg (by simp [List.elem_iff, h1])]
      exact ih ns os h
    · have hcc : (core.contains item.name) = false := by
        simp [List.elem_iff, h1]
      by_cases h2 : item.present = true
      · simp only [classify, hcc, Bool.false_eq_true, if_false, h2, Bool.not_true] at h
        cases hc : cmpGtLastRun item.mtime lrv with
        | error e => rw [hc] at h; exact absurd h (by simp)
        | ok isNew =>
          rw [hc] at h
          cases hr : classify core lrv rest with
          | error e => rw [hr] at h; exact absurd h (by simp)
          | ok p =>
            obtain ⟨ns2, os2⟩ := p
            rw [hr] at h
            rw [List.filter_cons_of_pos (by simp [h1, h2])]
            cases isNew with
            | true =>
              simp only [eq_self_iff_true, if_true, Except.ok.injEq, Prod.mk.injEq] at h
              obtain ⟨hns, hos⟩ := h
              subst hns; subst hos
              simpa using (ih ns2 os2 hr).cons item
            | false =>
              simp only [Bool.false_eq_true, if_false, Except.ok.injEq, Prod.mk.injEq] at h
              obtain ⟨hns, hos⟩ := h
              subst hns; subst hos
              exact List.perm_middle.trans ((ih ns2 os2 hr).cons item)
      · simp only [Bool.not_eq_true] at h2
        simp only [classify, hcc, Bool.false_eq_true, if_false, h2, Bool.not_false,
          if_true] at h
        rw [List.filter_cons_of_neg (by simp [h2])]
        exact ih ns os h

/-- In a take of an appended list, if some member avoids the left part,
then the whole left part made it into the take. -/
theorem left_subset_take_of_mem_right {α : Type} {A B : List α} {y : α} {k : Nat}
    (hy : y ∈ (A ++ B).take k) (hyA : y ∉ A) : ∀ a ∈ A, a ∈ (A ++ B).take k := by
  intro a ha
  rw [List.take_append_eq_append_take] at hy ⊢
  rcases List.mem_append.mp hy with h | h
  · exact absurd (List.mem_of_mem_take h) hyA
  · have hne : B.take (k - A.length) ≠ [] := List.ne_nil_of_mem h
    have hk : A.length < k := by
      by_contra hk
      push_neg at hk
      rw [Nat.sub_eq_zero_of_le hk, List.take_zero] at hne
      exact hne rfl
    refine List.mem_append_left _ ?_
    rw [List.take_of_length_le (le_of_lt hk)]
    exact ha

/-! ### Wave lemmas -/

theorem pathExists_imp_occupied (shelf : List ShelfEntry) (n : String)
    (h : pathExists shelf n = true) : occupied shelf n = true := by
  simp only [pathExists, List.any_eq_true, Bool.and_eq_true, decide_eq_true_eq] at h
  obtain ⟨e, he, hn, _⟩ := h
  simp only [occupied, List.any_eq_true, decide_eq_true_eq]
  exact ⟨e, he, hn⟩

theorem runWave_cons_break (now t : Int) (ln : List String) (item : ArchiveItem)
    (rest : List ArchiveItem) (ws : WaveState) (h : t ≤ (ws.added : Int)) :
    runWave now t ln (item :: rest) ws = ws := by
  simp [runWave, h]

theorem runWave_cons_skip (now t : Int) (ln : List String) (item : ArchiveItem)
    (rest : List ArchiveItem) (ws : WaveState) (h : ¬ t ≤ (ws.added : Int))
    (h2 : ln.contains item.name = true) :
    runWave now t ln (item :: rest) ws = runWave now t ln rest ws := by
  have h2m : item.name ∈ ln := by simpa using h2
  simp [runWave, h, h2m]

theorem runWave_cons_pathExists (now t : Int) (ln : List String) (item : ArchiveItem)
    (rest : List ArchiveItem) (ws : WaveState) (h : ¬ t ≤ (ws.added : Int))
    (h2 : ln.contains item.name = false) (hpe : pathExists ws.shelf item.name = true) :
    runWave now t ln (item :: rest) ws = runWave now t ln rest ws := by
  have h2m : item.name ∉ ln := by simpa using h2
  simp [runWave, h, h2m, createLink, hpe]

theorem runWave_cons_occupied (now t : Int) (ln : List String) (item : ArchiveItem)
    (rest : List ArchiveItem) (ws : WaveState) (h : ¬ t ≤ (ws.added : Int))
    (h2 : ln.contains item.name = false) (hpe : pathExists ws.shelf item.name = false)
    (hoc : occupied ws.shelf item.name = true) :
    runWave now t ln (item :: rest) ws = runWave now t ln rest ws := by
  have h2m : item.name ∉ ln := by simpa using h2
  simp [runWave, h, h2m, createLink, hpe, hoc]

theorem runWave_cons_create (now t : Int) (ln : List String) (item : ArchiveItem)
    (rest : List ArchiveItem) (ws : WaveState) (h : ¬ t ≤ (ws.added : Int))
    (h2 : ln.contains item.name = false) (hoc : occupied ws.shelf item.name = false) :
    runWave now t ln (item :: rest) ws =
      runWave now t ln rest
        ⟨ws.shelf ++ [mkLink item.name item.mtime now], ws.added + 1,
          ws.createdNames ++ [item.name]⟩ := by
  have hpe : pathExists ws.shelf item.name = false := by
    cases hp : pathExists ws.shelf item.name with
    | false => rfl
    | true => rw [pathExists_imp_occupied _ _ hp] at hoc; exact absurd hoc (by simp)
  have h2m : item.name ∉ ln := by simpa using h2
  simp [runWave, h, h2m, createLink, hpe, hoc]

theorem runWave_delta (now t : Int) (ln : List String) (cs : List ArchiveItem) :
    ∀ ws : WaveState, ∃ ext : List ShelfEntry,
      (runWave now t ln cs ws).shelf = ws.shelf ++ ext ∧
      (runWave now t ln cs ws).createdNames =
        ws.createdNames ++ ext.map (fun e => e.name) ∧
      (runWave now t ln cs ws).added = ws.added + ext.length ∧
      ∀ e ∈ ext, e.isLink = true ∧ (∃ c ∈ cs, c.name = e.name ∧ e = mkLink c.name c.mtime now) ∧
        ln.contains e.name = false := by
  induction cs with
  | nil =>
    intro ws
    exact ⟨[], by simp [runWave]⟩
  | cons item rest ih =>
    intro ws
    by_cases hbreak : t ≤ (ws.added : Int)
    · exact ⟨[], by simp [runWave_cons_break now t ln item rest ws hbreak]⟩
    · cases hln : ln.contains item.name with
      | true =>
        obtain ⟨ext, h1, h2, h3, h4⟩ := ih ws
        rw [runWave_cons_skip now t ln item rest ws hbreak hln]
        refine ⟨ext, h1, h2, h3, fun e he => ?_⟩
        obtain ⟨ha, ⟨c, hc, hcn⟩, hb⟩ := h4 e he
        exact ⟨ha, ⟨c, List.mem_cons_of_mem _ hc, hcn⟩, hb⟩
      | false =>
        cases hoc : occupied ws.shelf item.name with
        | true =>
          cases hpe : pathExists ws.shelf item.name with
          | true =>
            rw [runWave_cons_pathExists now t ln item rest ws hbreak hln hpe]
            obtain ⟨ext, h1, h2, h3, h4⟩ := ih ws
            refine ⟨ext, h1, h2, h3, fun e he => ?_⟩
            obtain ⟨ha, ⟨c, hc, hcn⟩, hb⟩ := h4 e he
            exact ⟨ha, ⟨c, List.mem_cons_of_mem _ hc, hcn⟩, hb⟩
          | false =>
            rw [runWave_cons_occupied now t ln item rest ws hbreak hln hpe hoc]
            obtain ⟨ext, h1, h2, h3, h4⟩ := ih ws
            refine ⟨ext, h1, h2, h3, fun e he => ?_⟩
            obtain ⟨ha, ⟨c, hc, hcn⟩, hb⟩ := h4 e he
            exact ⟨ha, ⟨c, List.mem_cons_of_mem _ hc, hcn⟩, hb⟩
        | false =>
          rw [runWave_cons_create now t ln item rest ws hbreak hln hoc]
          obtain ⟨ext, h1, h2, h3, h4⟩ :=
            ih ⟨ws.shelf ++ [mkLink item.name item.mtime now], ws.added + 1,
              ws.createdNames ++ [item.name]⟩
          refine ⟨mkLink item.name item.mtime now :: ext, ?_, ?_, ?_, ?_⟩
          · rw [h1]; simp
          · rw [h2]; simp [mkLink]
          · rw [h3]; simp; omega
          · intro e he
            rcases List.mem_cons.mp he with he | he
            · subst he
              exact ⟨rfl, ⟨item, List.mem_cons_self _ _, rfl, rfl⟩, by simpa [mkLink] using hln⟩
            · obtain ⟨ha, ⟨c, hc, hcn⟩, hb⟩ := h4 e he
              exact ⟨ha, ⟨c, List.mem_cons_of_mem _ hc, hcn⟩, hb⟩

theorem runWave_stop (now t : Int) (ln : List String) (cs : List ArchiveItem)
    (ws : WaveState) (h : t ≤ (ws.added : Int)) :
    runWave now t ln cs ws = ws := by
  cases cs with
  | nil => simp [runWave]
  | cons item rest => exact runWave_cons_break now t ln item rest ws h

theorem runWave_added_le (now t : Int) (ln : List String) (cs : List ArchiveItem) :
    ∀ ws : WaveState, ((runWave now t ln cs ws).added : Int) ≤ max (ws.added : Int) t := by
  induction cs with
  | nil =>
    intro ws
    simp only [runWave]
    exact le_max_left _ _
  | cons item rest ih =>
    intro ws
    by_cases hbreak : t ≤ (ws.added : Int)
    · rw [runWave_cons_break now t ln item rest ws hbreak]
      exact le_max_left _ _
    · cases hln : ln.contains item.name with
      | true =>
        rw [runWave_cons_skip now t ln item rest ws hbreak hln]
        exact ih ws
      | false =>
        cases hoc : occupied ws.shelf item.name with
        | true =>
          cases hpe : pathExists ws.shelf item.name with
          | true =>
            rw [runWave_cons_pathExists now t ln item rest ws hbreak hln hpe]
            exact ih ws
          | false =>
            rw [runWave_cons_occupied now t ln item rest ws hbreak hln hpe hoc]
            exact ih ws
        | false =>
          rw [runWave_cons_create now t ln item rest ws hbreak hln hoc]
          have h2 := ih ⟨ws.shelf ++ [mkLink item.name item.mtime now], ws.added + 1,
            ws.createdNames ++ [item.name]⟩
          simp only at h2
          have hmx : max ((ws.added + 1 : Nat) : Int) t = t := by
            apply max_eq_right; push_cast; omega
          rw [hmx] at h2
          exact le_trans h2 (le_max_right _ _)

theorem runWave_accounted (now t : Int) (ln : List String) (cs : List ArchiveItem) :
    ∀ ws : WaveState,
      (t ≤ ((runWave now t ln cs ws).added : Int)) ∨
      ∀ c ∈ cs, c.name ∈ ln ∨ ∃ e ∈ (runWave now t ln cs ws).shelf, e.name = c.name := by
  induction cs with
  | nil =>
    intro ws
    exact Or.inr (fun c hc => absurd hc (List.not_mem_nil c))
  | cons item rest ih =>
    intro ws
    by_cases hbreak : t ≤ (ws.added : Int)
    · rw [runWave_cons_break now t ln item rest ws hbreak]
      exact Or.inl hbreak
    · cases hln : ln.contains item.name with
      | true =>
        rw [runWave_cons_skip now t ln item rest ws hbreak hln]
        rcases ih ws with hL | hR
        · exact Or.inl hL
        · refine Or.inr (fun c hc => ?_)
          rcases List.mem_cons.mp hc with hc | hc
          · subst hc; exact Or.inl (by simpa using hln)
          · exact hR c hc
      | false =>
        cases hoc : occupied ws.shelf item.name with
        | true =>
          have hocc : ∃ e ∈ ws.shelf, e.name = item.name := by
            simpa [occupied, List.any_eq_true] using hoc
          obtain ⟨e0, he0, hn0⟩ := hocc
          have hstep : runWave now t ln (item :: rest) ws = runWave now t ln rest ws := by
            cases hpe : pathExists ws.shelf item.name with
            | true => exact runWave_cons_pathExists now t ln item rest ws hbreak hln hpe
            | false => exact runWave_cons_occupied now t ln item rest ws hbreak hln hpe hoc
          rw [hstep]
          rcases ih ws with hL | hR
          · exact Or.inl hL
          · refine Or.inr (fun c hc => ?_)
            rcases List.mem_cons.mp hc with hc | hc
            · subst hc
              obtain ⟨ext, hsh, -, -, -⟩ := runWave_delta now t ln rest ws
              exact Or.inr ⟨e0, hsh ▸ List.mem_append_left _ he0, hn0⟩
            · exact hR c hc
        | false =>
          rw [runWave_cons_create now t ln item rest ws hbreak hln hoc]
          set ws2 : WaveState := ⟨ws.shelf ++ [mkLink item.name item.mtime now],
            ws.added + 1, ws.createdNames ++ [item.name]⟩ with hws2
          rcases ih ws2 with hL | hR
          · exact Or.inl hL
          · refine Or.inr (fun c hc => ?_)
            rcases List.mem_cons.mp hc with hc | hc
            · subst hc
              obtain ⟨ext, hsh, -, -, -⟩ := runWave_delta now t ln rest ws2
              refine Or.inr ⟨mkLink c.name c.mtime now, ?_, rfl⟩
              rw [hsh]
              exact List.mem_append_left _ (by simp [hws2])
            · exact hR c hc

theorem runWave_nothing (now t : Int) (ln : List String) (cs : List ArchiveItem)
    (base : List ShelfEntry)
    (hln : ∀ e ∈ base, e.isLink = true → e.name ∈ ln) :
    ∀ ws : WaveState, (∀ e ∈ base, e ∈ ws.shelf) →
      (∀ c ∈ cs, ∃ e ∈ base, e.name = c.name) →
      runWave now t ln cs ws = ws := by
  induction cs with
  | nil =>
    intro ws _ _
    simp [runWave]
  | cons item rest ih =>
    intro ws hb hocc
    by_cases hbreak : t ≤ (ws.added : Int)
    · exact runWave_cons_break now t ln item rest ws hbreak
    · obtain ⟨e0, he0, hn0⟩ := hocc item (List.mem_cons_self _ _)
      have hoccrest : ∀ c ∈ rest, ∃ e ∈ base, e.name = c.name :=
        fun c hc => hocc c (List.mem_cons_of_mem _ hc)
      cases hL : e0.isLink with
      | true =>
        have hmem : item.name ∈ ln := hn0 ▸ hln e0 he0 hL
        have hln2 : ln.contains item.name = true := by simpa using hmem
        rw [runWave_cons_skip now t ln item rest ws hbreak hln2]
        exact ih ws hb hoccrest
      | false =>
        cases hln2 : ln.contains item.name with
        | true =>
          rw [runWave_cons_skip now t ln item rest ws hbreak hln2]
          exact ih ws hb hoccrest
        | false =>
          have hpe : pathExists ws.shelf item.name = true := by
            simp only [pathExists, List.any_eq_true]
            exact ⟨e0, hb e0 he0, by simp [hn0, hL]⟩
          rw [runWave_cons_pathExists now t ln item rest ws hbreak hln2 hpe]
          exact ih ws hb hoccrest

theorem runWave_clean (now t : Int) (ln : List String) :
    ∀ (cs : List ArchiveItem) (ws : WaveState) (P : List String),
      ((cs.map (fun c => c.name)).Nodup) →
      (∀ c ∈ cs, c.name ∉ P) →
      (∀ e ∈ ws.shelf, e.name ∈ ln ∨ e.name ∈ P) →
      (runWave now t ln cs ws).createdNames =
        ws.createdNames ++
          ((cs.map (fun c => c.name)).filter (fun n => !(ln.contains n))).take
            (t - (ws.added : Int)).toNat := by
  intro cs
  induction cs with
  | nil =>
    intro ws P _ _ _
    simp [runWave]
  | cons item rest ih =>
    intro ws P hnd hP hsh
    rw [List.map_cons] at hnd
    obtain ⟨hnd1, hnd2⟩ := List.nodup_cons.mp hnd
    by_cases hbreak : t ≤ (ws.added : Int)
    · rw [runWave_cons_break now t ln item rest ws hbreak]
      have hz : (t - (ws.added : Int)).toNat = 0 := by omega
      rw [hz, List.take_zero, List.append_nil]
    · cases hln : ln.contains item.name with
      | true =>
        rw [runWave_cons_skip now t ln item rest ws hbreak hln,
          ih ws P hnd2 (fun c hc => hP c (List.mem_cons_of_mem _ hc)) hsh,
          List.map_cons, List.filter_cons_of_neg (by simpa using hln)]
      | false =>
        have hoc : occupied ws.shelf item.name = false := by
          cases hoc : occupied ws.shelf item.name with
          | false => rfl
          | true =>
            obtain ⟨e0, he0, hn0⟩ : ∃ e ∈ ws.shelf, e.name = item.name := by
              simpa [occupied, List.any_eq_true] using hoc
            rcases hsh e0 he0 with hl | hp
            · rw [hn0] at hl
              rw [show ln.contains item.name = true from by simpa using hl] at hln
              exact absurd hln (by simp)
            · rw [hn0] at hp
              exact absurd hp (hP item (List.mem_cons_self _ _))
        rw [runWave_cons_create now t ln item rest ws hbreak hln hoc]
        have hP2 : ∀ c ∈ rest, c.name ∉ (item.name :: P) := by
          intro c hc
          simp only [List.mem_cons]
          push_neg
          refine ⟨fun heq => hnd1 (heq ▸ List.mem_map_of_mem (fun c => c.name) hc),
            hP c (List.mem_cons_of_mem _ hc)⟩
        have hsh2 : ∀ e ∈ ws.shelf ++ [mkLink item.name item.mtime now],
            e.name ∈ ln ∨ e.name ∈ (item.name :: P) := by
          intro e he
          rcases List.mem_append.mp he with he | he
          · rcases hsh e he with hl | hp
            · exact Or.inl hl
            · exact Or.inr (List.mem_cons_of_mem _ hp)
          · simp only [List.mem_singleton] at he
            subst he
            exact Or.inr (List.mem_cons_self _ _)
        have hrec := ih ⟨ws.shelf ++ [mkLink item.name item.mtime now], ws.added + 1,
            ws.createdNames ++ [item.name]⟩ (item.name :: P) hnd2 hP2 hsh2
        rw [hrec]
        simp only
        have hk : (t - ((ws.added : Int))).toNat =
            (t - (((ws.added + 1 : Nat) : Int))).toNat + 1 := by push_cast; omega
        rw [List.map_cons, List.filter_cons_of_pos (by simpa using hln), hk, List.take_succ_cons,
          List.append_assoc]
        rfl

/-! ### Facts about one full pass -/

theorem listRotationLinks_append (a b : List ShelfEntry) :
    listRotationLinks (a ++ b) = listRotationLinks a ++ listRotationLinks b :=
  List.filter_append _ _

/-- Structure of one pass: the final shelf is the post-eviction shelf
followed by the created links, the created names are their names, each
created entry is a link named after a candidate not already present as a
link name, the number of creations never exceeds the positive part of
to_fill, and either the budget was exhausted or every candidate name has
an occupant in the final shelf. -/
theorem runCore_spec (cfg : Config) (state : SDict) (shelf0 : List ShelfEntry)
    (ns : List (Int × ArchiveItem)) (os : List ArchiveItem) (now : Int) :
    ∃ ext : List ShelfEntry,
      (runCore cfg state shelf0 ns os now).shelf = shelfAfterEvict cfg now shelf0 ++ ext ∧
      (runCore cfg state shelf0 ns os now).createdNames = ext.map (fun e => e.name) ∧
      (runCore cfg state shelf0 ns os now).savedState = dictSet state "last_run" (JVal.num now) ∧
      (runCore cfg state shelf0 ns os now).removedCount =
        removeOldLinks cfg now (listRotationLinks shelf0) ∧
      (∀ e ∈ ext, e.isLink = true ∧
        ((∃ c ∈ (List.insertionSort newOrder ns).map (fun p => p.2), c.name = e.name) ∨
         (∃ c ∈ List.insertionSort oldOrder os, c.name = e.name)) ∧
        ((listRotationLinks (shelfAfterEvict cfg now shelf0)).map
          (fun p => p.name)).contains e.name = false) ∧
      ((ext.length : Int) ≤
        max 0 (cfg.maxRotationItems -
          ((listRotationLinks (shelfAfterEvict cfg now shelf0)).length : Int))) ∧
      ((cfg.maxRotationItems -
          ((listRotationLinks (shelfAfterEvict cfg now shelf0)).length : Int)) ≤
            (ext.length : Int) ∨
        ∀ c : ArchiveItem,
          (c ∈ (List.insertionSort newOrder ns).map (fun p => p.2) ∨
           c ∈ List.insertionSort oldOrder os) →
          ∃ e ∈ (runCore cfg state shelf0 ns os now).shelf, e.name = c.name) := by
  simp only [runCore]
  set shelf1 := shelfAfterEvict cfg now shelf0 with hshelf1
  set ln := (listRotationLinks shelf1).map (fun p => p.name) with hlnd
  set sNew := (List.insertionSort newOrder ns).map (fun p => p.2) with hsNew
  set sOld := List.insertionSort oldOrder os with hsOld
  set t := cfg.maxRotationItems - ((listRotationLinks shelf1).length : Int) with htd
  set ws0 : WaveState := ⟨shelf1, 0, []⟩ with hws0
  set ws1 := runWave now t ln sNew ws0 with hws1
  obtain ⟨ext1, hsh1, hcr1, had1, hfacts1⟩ := runWave_delta now t ln sNew ws0
  rw [← hws1] at hsh1 hcr1 had1
  simp only [hws0] at hsh1 hcr1 had1
  rw [List.nil_append] at hcr1
  rw [Nat.zero_add] at had1
  have hadd1le : ((ws1.added : Int)) ≤ max 0 t := by
    have h := runWave_added_le now t ln sNew ws0
    rw [← hws1] at h
    simpa [hws0] using h
  have hlnmem : ∀ c : ArchiveItem, c.name ∈ ln →
      ∃ e ∈ shelf1, e.name = c.name := by
    intro c hc
    rw [hlnd] at hc
    obtain ⟨e, he, hn⟩ := List.mem_map.mp hc
    exact ⟨e, List.mem_of_mem_filter he, hn⟩
  by_cases hguard : (ws1.added : Int) < t
  · rw [if_pos hguard]
    obtain ⟨ext2, hsh2, hcr2, had2, hfacts2⟩ := runWave_delta now t ln sOld ws1
    refine ⟨ext1 ++ ext2, ?_, ?_, trivial, trivial, ?_, ?_, ?_⟩
    · rw [hsh2, hsh1, List.append_assoc]
    · rw [hcr2, hcr1, List.map_append]
    · intro e he
      rcases List.mem_append.mp he with he | he
      · obtain ⟨hl, ⟨c, hc, hcn, -⟩, hnc⟩ := hfacts1 e he
        exact ⟨hl, Or.inl ⟨c, hc, hcn⟩, hnc⟩
      · obtain ⟨hl, ⟨c, hc, hcn, -⟩, hnc⟩ := hfacts2 e he
        exact ⟨hl, Or.inr ⟨c, hc, hcn⟩, hnc⟩
    · have hb := runWave_added_le now t ln sOld ws1
      rw [had2, had1] at hb
      have hmax : max ((ext1.length : Int)) t = t := max_eq_right (by
        rw [had1] at hguard; exact le_of_lt hguard)
      rw [hmax] at hb
      push_cast [List.length_append] at hb ⊢
      exact le_trans hb (le_max_right _ _)
    · by_cases hdone : t ≤ (((runWave now t ln sOld ws1).added : Int))
      · refine Or.inl ?_
        rw [had2, had1] at hdone
        push_cast [List.length_append] at hdone ⊢
        exact hdone
      · refine Or.inr (fun c hc => ?_)
        have hacc2 := runWave_accounted now t ln sOld ws1
        rcases hacc2 with hacc2 | hacc2
        · exact absurd hacc2 hdone
        · have hacc1 := runWave_accounted now t ln sNew ws0
          rw [← hws1] at hacc1
          rcases hacc1 with hacc1 | hacc1
          · exact absurd (lt_of_lt_of_le hguard (le_refl t)) (not_lt.mpr hacc1)
          · have hshelf2 : (runWave now t ln sOld ws1).shelf = shelf1 ++ (ext1 ++ ext2) := by
              rw [hsh2, hsh1, List.append_assoc]
            rcases hc with hc | hc
            · rcases hacc1 c hc with hcl | ⟨e, he, hn⟩
              · obtain ⟨e, he, hn⟩ := hlnmem c hcl
                exact ⟨e, hshelf2 ▸ List.mem_append_left _ he, hn⟩
              · rw [hsh1] at he
                refine ⟨e, ?_, hn⟩
                rw [hshelf2, ← List.append_assoc]
                exact List.mem_append_left _ he
            · rcases hacc2 c hc with hcl | ⟨e, he, hn⟩
              · obtain ⟨e, he, hn⟩ := hlnmem c hcl
                exact ⟨e, hshelf2 ▸ List.mem_append_left _ he, hn⟩
              · exact ⟨e, he, hn⟩
  · rw [if_neg hguard]
    refine ⟨ext1, hsh1, hcr1, trivial, trivial, ?_, ?_, ?_⟩
    · intro e he
      obtain ⟨hl, ⟨c, hc, hcn, -⟩, hnc⟩ := hfacts1 e he
      exact ⟨hl, Or.inl ⟨c, hc, hcn⟩, hnc⟩
    · rw [← had1]
      exact hadd1le
    · refine Or.inl ?_
      rw [← had1]
      exact not_lt.mp hguard

/-- When to_fill is not positive, the pass creates nothing and leaves
the post-eviction shelf as it is. -/
theorem runCore_fill_nonpos (cfg : Config) (state : SDict) (shelf0 : List ShelfEntry)
    (ns : List (Int × ArchiveItem)) (os : List ArchiveItem) (now : Int)
    (h : cfg.maxRotationItems -
        ((listRotationLinks (shelfAfterEvict cfg now shelf0)).length : Int) ≤ 0) :
    (runCore cfg state shelf0 ns os now).createdNames = [] ∧
    (runCore cfg state shelf0 ns os now).shelf = shelfAfterEvict cfg now shelf0 := by
  simp only [runCore]
  set shelf1 := shelfAfterEvict cfg now shelf0 with hshelf1
  set ln := (listRotationLinks shelf1).map (fun p => p.name) with hlnd
  set sNew := (List.insertionSort newOrder ns).map (fun p => p.2) with hsNew
  set sOld := List.insertionSort oldOrder os with hsOld
  set t := cfg.maxRotationItems - ((listRotationLinks shelf1).length : Int) with htd
  set ws0 : WaveState := ⟨shelf1, 0, []⟩ with hws0
  have hws1eq : runWave now t ln sNew ws0 = ws0 :=
    runWave_stop now t ln sNew ws0 (by simp [hws0]; exact h)
  rw [hws1eq]
  rw [if_neg (by simp [hws0]; exact h)]
  exact ⟨rfl, rfl⟩

/-- When every candidate name already has an occupant in the
post-eviction shelf, the pass creates nothing. -/
theorem runCore_nothing (cfg : Config) (state : SDict) (shelf0 : List ShelfEntry)
    (ns : List (Int × ArchiveItem)) (os : List ArchiveItem) (now : Int)
    (H : ∀ c : ArchiveItem,
        (c ∈ (List.insertionSort newOrder ns).map (fun p => p.2) ∨
         c ∈ List.insertionSort oldOrder os) →
        ∃ e ∈ shelfAfterEvict cfg now shelf0, e.name = c.name) :
    (runCore cfg state shelf0 ns os now).createdNames = [] ∧
    (runCore cfg state shelf0 ns os now).shelf = shelfAfterEvict cfg now shelf0 := by
  simp only [runCore]
  set shelf1 := shelfAfterEvict cfg now shelf0 with hshelf1
  set ln := (listRotationLinks shelf1).map (fun p => p.name) with hlnd
  set sNew := (List.insertionSort newOrder ns).map (fun p => p.2) with hsNew
  set sOld := List.insertionSort oldOrder os with hsOld
  set t := cfg.maxRotationItems - ((listRotationLinks shelf1).length : Int) with htd
  set ws0 : WaveState := ⟨shelf1, 0, []⟩ with hws0
  have hln2 : ∀ e ∈ shelf1, e.isLink = true → e.name ∈ ln := by
    intro e he hl
    rw [hlnd]
    exact List.mem_map_of_mem _ (List.mem_filter.mpr ⟨he, hl⟩)
  have hb : ∀ e ∈ shelf1, e ∈ ws0.shelf := by
    intro e he
    simpa [hws0] using he
  have hws1eq : runWave now t ln sNew ws0 = ws0 :=
    runWave_nothing now t ln sNew shelf1 hln2 ws0 hb
      (fun c hc => H c (Or.inl hc))
  have hws2eq : runWave now t ln sOld ws0 = ws0 :=
    runWave_nothing now t ln sOld shelf1 hln2 ws0 hb
      (fun c hc => H c (Or.inr hc))
  rw [hws1eq]
  by_cases hguard : ((ws0.added : Int)) < t
  · rw [if_pos hguard, hws2eq]
    exact ⟨rfl, rfl⟩
  · rw [if_neg hguard]
    exact ⟨rfl, rfl⟩

/-- A successful pass factors through load_state, the classification
loop and the core of the pass. -/
theorem mainRun_ok_elim {cfg : Config} {sc : Option StateFile} {coreNames : List String}
    {shelf0 : List ShelfEntry} {archive : List ArchiveItem} {now : Int} {out : RunOutput}
    (hrun : mainRun cfg sc coreNames shelf0 archive now = .ok out) :
    ∃ state ns os, loadState sc = .ok state ∧
      classify coreNames (dictGet state "last_run" (JVal.num 0)) (scanMovies archive) =
        .ok (ns, os) ∧
      out = runCore cfg state shelf0 ns os now := by
  unfold mainRun at hrun
  split at hrun
  next e heq => exact absurd hrun (by simp)
  next state heq =>
    split at hrun
    next e2 heq2 => exact absurd hrun (by simp)
    next ns os heq2 =>
      simp only [Except.ok.injEq] at hrun
      exact ⟨state, ns, os, heq, heq2, hrun.symm⟩

/-- Items classified old by a numeric last_run have mtime at most that
last_run. -/
theorem classifyNum_snd_mtime (core : List String) (n : Int) :
    ∀ items : List ArchiveItem, ∀ i ∈ (classifyNum core n items).2, i.mtime ≤ n := by
  intro items
  induction items with
  | nil => intro i hi; exact absurd hi (List.not_mem_nil i)
  | cons item rest ih =>
    intro i hi
    simp only [classifyNum] at hi
    by_cases h1 : core.contains item.name
    · rw [if_pos h1] at hi
      exact ih i hi
    · rw [if_neg h1] at hi
      by_cases h2 : item.present
      · rw [if_neg (by simp [h2])] at hi
        by_cases h3 : n < item.mtime
        · rw [if_pos h3] at hi
          exact ih i hi
        · rw [if_neg h3] at hi
          rcases List.mem_cons.mp hi with hii | hii
          · subst hii; exact le_of_not_lt h3
          · exact ih i hii
      · rw [if_pos (by simp [h2])] at hi
        exact ih i hi

/-! ### The claims -/

/-- C3: the claim says a dangling link (target gone, link still present)
is removed unconditionally regardless of age.  The code reads the link
with lstat, which does not follow symbolic links, so lstat succeeds on a
dangling link and only the age test applies: a fresh dangling link is
kept.  At now = 1000 with the default 30-day limit, a present dangling
link with own mtime 1000 is not removed and the shelf keeps it. -/
theorem c3_dangling_fresh_link_kept :
    removeOldLinks defaultConfig 1000 [⟨"m", true, 1000, 0, false, true⟩] = 0 ∧
    shelfAfterEvict defaultConfig 1000 [⟨"m", true, 1000, 0, false, true⟩] =
      [⟨"m", true, 1000, 0, false, true⟩] ∧
    (⟨"m", true, 1000, 0, false, true⟩ : ShelfEntry).targetExists = false ∧
    (⟨"m", true, 1000, 0, false, true⟩ : ShelfEntry).isLink = true := by
  refine ⟨by decide, by decide, rfl, rfl⟩

/-- C4 counterexample: load_state does not return the default on a
stored state that is not valid JSON; json.load raises and the whole run
fails. -/
theorem c4_corrupt_state_not_default :
    loadState (some StateFile.invalid) = .error () ∧
    ¬ (loadState (some StateFile.invalid) = .ok [("last_run", JVal.num 0)]) ∧
    mainRun defaultConfig (some StateFile.invalid) [] [] [] 0 = .error () := by
  refine ⟨rfl, ?_, rfl⟩
  intro h
  simp [loadState] at h

/-- C4 amended: load_state returns the default state (last_run = 0) when
no prior state exists, returns the parsed object when the stored state
is a valid JSON object, and raises on a corrupt (non-JSON) stored state,
in which case the whole run fails rather than resetting to the
default. -/
theorem c4_load_state_behavior (d : SDict) :
    loadState none = .ok [("last_run", JVal.num 0)] ∧
    loadState (some (StateFile.valid d)) = .ok d ∧
    loadState (some StateFile.invalid) = .error () ∧
    ∀ (cfg : Config) (coreNames : List String) (shelf0 : List ShelfEntry)
      (archive : List ArchiveItem) (now : Int),
      mainRun cfg (some StateFile.invalid) coreNames shelf0 archive now = .error () :=
  ⟨rfl, rfl, rfl, fun _ _ _ _ _ => rfl⟩

/-- C6: eviction reads the link entry itself: a present link is removed
exactly when now minus its own mtime exceeds the age limit in seconds,
independently of the target metadata; with the default 30-day limit a
link aged 31 days is removed and one aged 29 days is retained. -/
theorem c6_age_eviction (cfg : Config) (now : Int) (l : ShelfEntry)
    (hp : l.present = true) :
    (linkRemoved cfg now l =
      decide (cfg.linkMaxAgeDays * 24 * 60 * 60 < now - l.mtime)) ∧
    (∀ (tm : Int) (te : Bool),
      linkRemoved cfg now
        ⟨l.name, l.isLink, l.mtime, tm, te, l.present⟩ = linkRemoved cfg now l) ∧
    removeOldLinks defaultConfig 1000000000
      [⟨"a", true, 1000000000 - 31 * 86400, 0, true, true⟩] = 1 ∧
    removeOldLinks defaultConfig 1000000000
      [⟨"b", true, 1000000000 - 29 * 86400, 0, true, true⟩] = 0 := by
  refine ⟨?_, fun tm te => rfl, by decide, by decide⟩
  simp only [linkRemoved, hp, Bool.not_true, Bool.false_or, cutoff]
  rw [decide_eq_decide]
  omega

/-- C6 witness: a concrete present link, to which the theorem applies. -/
theorem c6_age_eviction_witness :
    linkRemoved defaultConfig 400 (⟨"x", true, 100, 7, true, true⟩ : ShelfEntry) =
      decide (defaultConfig.linkMaxAgeDays * 24 * 60 * 60 < 400 -
        (⟨"x", true, 100, 7, true, true⟩ : ShelfEntry).mtime) :=
  (c6_age_eviction defaultConfig 400 ⟨"x", true, 100, 7, true, true⟩ rfl).1

/-- C7 counterexample: with a dangling link occupying the path,
create_link does not skip silently: Path.exists follows links and
reports false, os.symlink is attempted and raises FileExistsError, and
the handler logs an error. -/
theorem c7_dangling_occupant_logs_error :
    (createLink [⟨"X", true, 0, 0, false, true⟩] ⟨"X", 5, true, true⟩ 100).1 =
      LinkResult.errorLogged ∧
    LinkResult.errorLogged ≠ LinkResult.skippedExisting ∧
    (createLink [⟨"X", true, 0, 0, false, true⟩] ⟨"X", 5, true, true⟩ 100).2 =
      [⟨"X", true, 0, 0, false, true⟩] := by
  refine ⟨by decide, by decide, by decide⟩

/-- C7 amended: create_link skips without error when the occupant of the
path is visible to Path.exists (a non-link entry, or a link whose target
exists); when the occupant is a dangling link, a creation is attempted,
fails, and is caught and logged, with the occupant left unchanged; when
the path is free the link is created. -/
theorem c7_create_link_behavior (shelf : List ShelfEntry) (target : ArchiveItem)
    (now : Int) :
    (pathExists shelf target.name = true →
      createLink shelf target now = (.skippedExisting, shelf)) ∧
    (pathExists shelf target.name = false → occupied shelf target.name = true →
      createLink shelf target now = (.errorLogged, shelf)) ∧
    (occupied shelf target.name = false →
      createLink shelf target now =
        (.created, shelf ++ [mkLink target.name target.mtime now])) := by
  refine ⟨fun h => by simp [createLink, h],
    fun h1 h2 => by simp [createLink, h1, h2], fun h => ?_⟩
  have hpe : pathExists shelf target.name = false := by
    cases hp : pathExists shelf target.name with
    | false => rfl
    | true => rw [pathExists_imp_occupied _ _ hp] at h; exact absurd h (by simp)
  simp [createLink, hpe, h]

/-- C7 witness: a regular file occupies the path, so create_link skips
and leaves the shelf unchanged. -/
theorem c7_create_link_behavior_witness :
    createLink [⟨"F", false, 0, 0, false, true⟩] ⟨"F", 5, true, true⟩ 100 =
      (.skippedExisting, [⟨"F", false, 0, 0, false, true⟩]) :=
  (c7_create_link_behavior [⟨"F", false, 0, 0, false, true⟩] ⟨"F", 5, true, true⟩
    100).1 (by decide)

/-- C9: a non-link entry inside the shelf root survives eviction, is
absent from the link listing that feeds the capacity budget, and a
create_link call on its name skips without touching it. -/
theorem c9_nonlink_tolerance (cfg : Config) (now nowT : Int) (shelf : List ShelfEntry)
    (e : ShelfEntry) (target : ArchiveItem) (hnl : e.isLink = false)
    (hmem : e ∈ shelf) (hname : target.name = e.name) :
    e ∈ shelfAfterEvict cfg now shelf ∧
    e ∉ listRotationLinks shelf ∧
    createLink shelf target nowT = (.skippedExisting, shelf) := by
  refine ⟨List.mem_filter.mpr ⟨hmem, by simp [hnl]⟩, ?_, ?_⟩
  · intro hmm
    have h2 := (List.mem_filter.mp hmm).2
    rw [hnl] at h2
    exact absurd h2 (by simp)
  · have hpe : pathExists shelf target.name = true := by
      simp only [pathExists, List.any_eq_true]
      exact ⟨e, hmem, by simp [hname, hnl]⟩
    simp [createLink, hpe]

/-- C9 witness: a concrete regular file inside the shelf root. -/
theorem c9_nonlink_tolerance_witness :
    (⟨"f", false, 0, 0, false, true⟩ : ShelfEntry) ∈
      shelfAfterEvict defaultConfig 99 [⟨"f", false, 0, 0, false, true⟩] ∧
    (⟨"f", false, 0, 0, false, true⟩ : ShelfEntry) ∉
      listRotationLinks [⟨"f", false, 0, 0, false, true⟩] ∧
    createLink [⟨"f", false, 0, 0, false, true⟩] ⟨"f", 3, true, true⟩ 100 =
      (.skippedExisting, [⟨"f", false, 0, 0, false, true⟩]) :=
  c9_nonlink_tolerance defaultConfig 99 100 [⟨"f", false, 0, 0, false, true⟩]
    ⟨"f", false, 0, 0, false, true⟩ ⟨"f", 3, true, true⟩ rfl
    (List.mem_singleton.mpr rfl) rfl

/-- C2: when the shelf starts a run with at most M links, it ends the
run with at most M links; the number of links created is bounded by the
positive part of to_fill = M minus the post-eviction link count, and a
non-positive to_fill means nothing is created at all. -/
theorem c2_capacity (cfg : Config) (sc : Option StateFile) (coreNames : List String)
    (shelf0 : List ShelfEntry) (archive : List ArchiveItem) (now : Int) (out : RunOutput)
    (hrun : mainRun cfg sc coreNames shelf0 archive now = .ok out)
    (hM : ((listRotationLinks shelf0).length : Int) ≤ cfg.maxRotationItems) :
    ((listRotationLinks out.shelf).length : Int) ≤ cfg.maxRotationItems ∧
    ((out.createdNames.length : Int) ≤
      max 0 (cfg.maxRotationItems -
        ((listRotationLinks (shelfAfterEvict cfg now shelf0)).length : Int))) ∧
    (cfg.maxRotationItems -
        ((listRotationLinks (shelfAfterEvict cfg now shelf0)).length : Int) ≤ 0 →
      out.createdNames = []) := by
  obtain ⟨state, ns, os, hls, hcl, hout⟩ := mainRun_ok_elim hrun
  obtain ⟨ext, hsh, hcr, hsv, hrm, hfacts, hbound, hdich⟩ :=
    runCore_spec cfg state shelf0 ns os now
  rw [← hout] at hsh hcr
  have hLle : ((listRotationLinks (shelfAfterEvict cfg now shelf0)).length : Int) ≤
      ((listRotationLinks shelf0).length : Int) := by
    have hsub : List.Sublist (shelfAfterEvict cfg now shelf0) shelf0 := List.filter_sublist _
    exact_mod_cast (hsub.filter (fun e => e.isLink)).length_le
  refine ⟨?_, ?_, ?_⟩
  · rw [hsh, listRotationLinks_append]
    have hextl : listRotationLinks ext = ext :=
      List.filter_eq_self.mpr (fun e he => (hfacts e he).1)
    rw [List.length_append, hextl]
    rcases le_total (cfg.maxRotationItems -
        ((listRotationLinks (shelfAfterEvict cfg now shelf0)).length : Int)) 0 with h0 | h0
    · rw [max_eq_left h0] at hbound
      push_cast
      omega
    · rw [max_eq_right h0] at hbound
      push_cast
      omega
  · rw [hcr, List.length_map]
    exact hbound
  · intro h0
    rw [hout]
    exact (runCore_fill_nonpos cfg state shelf0 ns os now h0).1

/-- C8: no name in the core set is ever linked: every name the pass
creates is outside the core name set. -/
theorem c8_core_exclusion (cfg : Config) (sc : Option StateFile) (coreNames : List String)
    (shelf0 : List ShelfEntry) (archive : List ArchiveItem) (now : Int) (out : RunOutput)
    (hrun : mainRun cfg sc coreNames shelf0 archive now = .ok out) :
    ∀ n ∈ out.createdNames, n ∉ coreNames := by
  obtain ⟨state, ns, os, hls, hcl, hout⟩ := mainRun_ok_elim hrun
  obtain ⟨ext, hsh, hcr, -, -, hfacts, -, -⟩ := runCore_spec cfg state shelf0 ns os now
  rw [← hout] at hcr
  intro n hn
  rw [hcr] at hn
  obtain ⟨e, he, hne⟩ := List.mem_map.mp hn
  obtain ⟨-, horigin, -⟩ := hfacts e he
  obtain ⟨hsound_new, hsound_old⟩ := classify_ok_sound coreNames _ _ ns os hcl
  rcases horigin with ⟨c, hc, hcn⟩ | ⟨c, hc, hcn⟩
  · obtain ⟨p, hp, hpc⟩ := List.mem_map.mp hc
    have hpns : p ∈ ns := (List.mem_insertionSort newOrder).mp hp
    obtain ⟨-, hcore, -, -⟩ := hsound_new p hpns
    rw [← hne, ← hcn, ← hpc]
    exact hcore
  · have hcos : c ∈ os := (List.mem_insertionSort oldOrder).mp hc
    obtain ⟨-, hcore, -⟩ := hsound_old c hcos
    rw [← hne, ← hcn]
    exact hcore

/-- C10: when the stored state parses as an object without a last_run
key, dict.get falls back to 0, the run succeeds, the saved state gains
the last_run key while every other key keeps its value, and with
last_run = 0 the old partition can only hold entries with non-positive
mtime (every entry with a positive mtime counts as new). -/
theorem c10_missing_last_run_key (cfg : Config) (coreNames : List String)
    (shelf0 : List ShelfEntry) (archive : List ArchiveItem) (now : Int) (d : SDict)
    (hd : d.lookup "last_run" = none) :
    dictGet d "last_run" (JVal.num 0) = JVal.num 0 ∧
    (∃ out, mainRun cfg (some (StateFile.valid d)) coreNames shelf0 archive now =
        .ok out ∧
      out.savedState = dictSet d "last_run" (JVal.num now) ∧
      ∀ k, k ≠ "last_run" → out.savedState.lookup k = d.lookup k) ∧
    (∀ ns os, classify coreNames (JVal.num 0) (scanMovies archive) = .ok (ns, os) →
      ∀ i ∈ os, i.mtime ≤ 0) := by
  have hget : dictGet d "last_run" (JVal.num 0) = JVal.num 0 := by
    simp [dictGet, hd]
  have hsaved : (runCore cfg d shelf0 (classifyNum coreNames 0 (scanMovies archive)).1
      (classifyNum coreNames 0 (scanMovies archive)).2 now).savedState =
      dictSet d "last_run" (JVal.num now) := by
    simp [runCore]
  refine ⟨hget, ?_, ?_⟩
  · refine ⟨runCore cfg d shelf0 (classifyNum coreNames 0 (scanMovies archive)).1
      (classifyNum coreNames 0 (scanMovies archive)).2 now, ?_, hsaved, ?_⟩
    · unfold mainRun
      show (match classify coreNames (dictGet d "last_run" (JVal.num 0))
          (scanMovies archive) with
        | .error e => Except.error e
        | .ok (newMovies, oldMovies) =>
            Except.ok (runCore cfg d shelf0 newMovies oldMovies now)) = _
      rw [hget, classify_num_eq]
    · intro k hk
      rw [hsaved]
      exact lookup_dictSet_ne d "last_run" k _ hk
  · intro ns os hclassify i hi
    rw [classify_num_eq] at hclassify
    simp only [Except.ok.injEq] at hclassify
    have h2 : i ∈ (classifyNum coreNames 0 (scanMovies archive)).2 := by
      rw [hclassify]
      exact hi
    exact classifyNum_snd_mtime coreNames 0 _ i h2

/-- C5: running the pass again on the outcome of a successful pass, with
the archive and core unchanged and the second pass evicting nothing,
creates zero links and leaves the shelf as it was. -/
theorem c5_idempotent (cfg : Config) (sc : Option StateFile) (coreNames : List String)
    (shelf0 : List ShelfEntry) (archive : List ArchiveItem) (now1 now2 : Int)
    (out1 : RunOutput)
    (h1 : mainRun cfg sc coreNames shelf0 archive now1 = .ok out1)
    (hev : shelfAfterEvict cfg now2 out1.shelf = out1.shelf) :
    ∃ out2, mainRun cfg (some (StateFile.valid out1.savedState)) coreNames out1.shelf
        archive now2 = .ok out2 ∧
      out2.createdNames = [] ∧ out2.shelf = out1.shelf := by
  obtain ⟨state1, ns1, os1, hls1, hcl1, hout1⟩ := mainRun_ok_elim h1
  obtain ⟨ext1, hsh1, hcr1, hsv1, -, hfacts1, hbound1, hdich1⟩ :=
    runCore_spec cfg state1 shelf0 ns1 os1 now1
  rw [← hout1] at hsh1 hcr1 hdich1
  have hsv1b : out1.savedState = dictSet state1 "last_run" (JVal.num now1) := by
    rw [hout1]; exact hsv1
  have hget2 : dictGet out1.savedState "last_run" (JVal.num 0) = JVal.num now1 := by
    rw [hsv1b]
    exact dictGet_dictSet_self state1 "last_run" _ _
  set ns2 := (classifyNum coreNames now1 (scanMovies archive)).1 with hns2
  set os2 := (classifyNum coreNames now1 (scanMovies archive)).2 with hos2
  have hcl2 : classify coreNames (dictGet out1.savedState "last_run" (JVal.num 0))
      (scanMovies archive) = .ok (ns2, os2) := by
    rw [hget2, classify_num_eq]
  have hmain2 : mainRun cfg (some (StateFile.valid out1.savedState)) coreNames out1.shelf
      archive now2 = .ok (runCore cfg out1.savedState out1.shelf ns2 os2 now2) := by
    unfold mainRun
    show (match classify coreNames (dictGet out1.savedState "last_run" (JVal.num 0))
        (scanMovies archive) with
      | .error e => Except.error e
      | .ok (newMovies, oldMovies) =>
          Except.ok (runCore cfg out1.savedState out1.shelf newMovies oldMovies now2)) = _
    rw [hcl2]
  refine ⟨runCore cfg out1.savedState out1.shelf ns2 os2 now2, hmain2, ?_⟩
  rcases hdich1 with hbud | hocc
  · have hextl : listRotationLinks ext1 = ext1 :=
      List.filter_eq_self.mpr (fun e he => (hfacts1 e he).1)
    have hlen : ((listRotationLinks out1.shelf).length : Int) =
        ((listRotationLinks (shelfAfterEvict cfg now1 shelf0)).length : Int) +
          ext1.length := by
      rw [hsh1, listRotationLinks_append, List.length_append, hextl]
      push_cast
      ring
    have ht2 : cfg.maxRotationItems -
        ((listRotationLinks (shelfAfterEvict cfg now2 out1.shelf)).length : Int) ≤ 0 := by
      rw [hev, hlen]
      omega
    obtain ⟨hc2, hs2⟩ := runCore_fill_nonpos cfg out1.savedState out1.shelf ns2 os2 now2 ht2
    exact ⟨hc2, by rw [hs2, hev]⟩
  · have H : ∀ c : ArchiveItem,
        (c ∈ (List.insertionSort newOrder ns2).map (fun p => p.2) ∨
         c ∈ List.insertionSort oldOrder os2) →
        ∃ e ∈ shelfAfterEvict cfg now2 out1.shelf, e.name = c.name := by
      intro c hc
      rw [hev]
      have helig : c ∈ scanMovies archive ∧ c.name ∉ coreNames ∧ c.present = true := by
        obtain ⟨hsound_new2, hsound_old2⟩ :=
          classify_ok_sound coreNames (JVal.num now1) (scanMovies archive) ns2 os2
            (by rw [classify_num_eq])
        rcases hc with hc | hc
        · obtain ⟨p, hp, hpc⟩ := List.mem_map.mp hc
          have hpns : p ∈ ns2 := (List.mem_insertionSort newOrder).mp hp
          obtain ⟨hmem, hcore, hpres, -⟩ := hsound_new2 p hpns
          exact ⟨hpc ▸ hmem, hpc ▸ hcore, hpc ▸ hpres⟩
        · have hcos : c ∈ os2 := (List.mem_insertionSort oldOrder).mp hc
          obtain ⟨hmem, hcore, hpres⟩ := hsound_old2 c hcos
          exact ⟨hmem, hcore, hpres⟩
      have hcl1b := classify_ok_complete coreNames
        (dictGet state1 "last_run" (JVal.num 0)) (scanMovies archive) ns1 os1 hcl1
        c helig.1 helig.2.1 helig.2.2
      rcases hcl1b with ⟨m, hm⟩ | hm
      · exact hocc c (Or.inl (List.mem_map.mpr ⟨(m, c),
          (List.mem_insertionSort newOrder).mpr hm, rfl⟩))
      · exact hocc c (Or.inr ((List.mem_insertionSort oldOrder).mpr hm))
    obtain ⟨hc2, hs2⟩ := runCore_nothing cfg out1.savedState out1.shelf ns2 os2 now2 H
    exact ⟨hc2, by rw [hs2, hev]⟩

/-- On a clean shelf (all entries are links and none is evicted), with
candidate names free of duplicates, the pass creates exactly the first
to_fill names of the candidate sequence (new partition sorted newest
first, then old partition sorted by lowercased name) that are not
already link names. -/
theorem runCore_clean (cfg : Config) (state : SDict) (shelf0 : List ShelfEntry)
    (ns : List (Int × ArchiveItem)) (os : List ArchiveItem) (now : Int)
    (hclean : ∀ e ∈ shelf0, e.isLink = true ∧ linkRemoved cfg now e = false)
    (hnodupAll : ((((List.insertionSort newOrder ns).map (fun p => p.2)) ++
        List.insertionSort oldOrder os).map (fun c => c.name)).Nodup) :
    (runCore cfg state shelf0 ns os now).createdNames =
      (((((List.insertionSort newOrder ns).map (fun p => p.2)) ++
          List.insertionSort oldOrder os).map (fun c => c.name)).filter
        (fun n => !((shelf0.map (fun e => e.name)).contains n))).take
        (cfg.maxRotationItems - (shelf0.length : Int)).toNat := by
  have hse : shelfAfterEvict cfg now shelf0 = shelf0 :=
    List.filter_eq_self.mpr (fun e he => by
      obtain ⟨hl2, hr2⟩ := hclean e he
      simp [hl2, hr2])
  have hlrl : listRotationLinks shelf0 = shelf0 :=
    List.filter_eq_self.mpr (fun e he => (hclean e he).1)
  simp only [runCore, hse, hlrl]
  set sNew := (List.insertionSort newOrder ns).map (fun p => p.2) with hsNewd
  set sOld := List.insertionSort oldOrder os with hsOldd
  set ln := shelf0.map (fun p => p.name) with hlnd
  set t := cfg.maxRotationItems - (shelf0.length : Int) with htd
  set fN := ((sNew.map (fun c => c.name)).filter (fun n => !(ln.contains n))) with hfNd
  set fO := ((sOld.map (fun c => c.name)).filter (fun n => !(ln.contains n))) with hfOd
  clear_value t
  rw [List.map_append] at hnodupAll
  obtain ⟨hndN, hndO, hdisj⟩ := List.nodup_append.mp hnodupAll
  set ws0 : WaveState := ⟨shelf0, 0, []⟩ with hws0
  set ws1 := runWave now t ln sNew ws0 with hws1
  obtain ⟨ext1, hsh1, hcr1, had1, hfacts1⟩ := runWave_delta now t ln sNew ws0
  rw [← hws1] at hsh1 hcr1 had1
  simp only [hws0] at hsh1 hcr1 had1
  rw [List.nil_append] at hcr1
  rw [Nat.zero_add] at had1
  have hw1 : ws1.createdNames = fN.take (t - ((0 : Nat) : Int)).toNat := by
    have h := runWave_clean now t ln sNew ws0 [] hndN (by simp)
      (fun e he => Or.inl (List.mem_map_of_mem _ (by simpa [hws0] using he)))
    rw [← hws1] at h
    simpa [hws0, hfNd] using h
  have hk0 : ((t : Int) - ((0 : Nat) : Int)).toNat = t.toNat := by
    norm_num
  rw [hk0] at hw1
  have ha1 : ws1.added = min t.toNat fN.length := by
    have hlen1 : ws1.createdNames.length = ext1.length := by
      rw [hcr1, List.length_map]
    rw [had1, ← hlen1, hw1, List.length_take]
  rw [List.map_append, List.filter_append, ← hfNd, ← hfOd,
    List.take_append_eq_append_take]
  by_cases hguard : ((ws1.added : Int)) < t
  · rw [if_pos hguard]
    have hshw1 : ∀ e ∈ ws1.shelf, e.name ∈ ln ∨ e.name ∈ sNew.map (fun c => c.name) := by
      intro e he
      rw [hsh1] at he
      rcases List.mem_append.mp he with he | he
      · exact Or.inl (List.mem_map_of_mem _ he)
      · obtain ⟨-, ⟨c, hc, hcn, -⟩, -⟩ := hfacts1 e he
        exact Or.inr (hcn ▸ List.mem_map_of_mem _ hc)
    have hPold : ∀ c ∈ sOld, c.name ∉ sNew.map (fun c => c.name) := by
      intro c hc hmem
      exact hdisj hmem (List.mem_map_of_mem _ hc)
    have hw2 := runWave_clean now t ln sOld ws1 (sNew.map (fun c => c.name))
      hndO hPold hshw1
    rw [hw2, hw1, ← hfOd]
    have hidx : (t - ((ws1.added : Int))).toNat = t.toNat - fN.length := by
      rw [ha1] at hguard ⊢
      rcases Nat.le_total t.toNat fN.length with hmm | hmm
      · rw [min_eq_left hmm] at hguard ⊢
        omega
      · rw [min_eq_right hmm] at hguard ⊢
        omega
    rw [hidx]
  · rw [if_neg hguard]
    rw [hw1]
    have hz : t.toNat - fN.length = 0 := by
      rw [ha1] at hguard
      rcases Nat.le_total t.toNat fN.length with hmm | hmm
      · omega
      · rw [min_eq_right hmm] at hguard
        omega
    rw [hz, List.take_zero, List.append_nil]

/-- C1: on a clean shelf, the names the pass links are exactly the
candidate names, new partition first sorted newest-first, then old
partition sorted by lowercased name ascending, skipping names already
present as links, truncated to the budget; consequently no old item is
linked while an eligible new item is left unlinked; and the two concrete
examples of the spec hold: new A(t=100), B(t=200) with old C, D and
budget 3 give [B, A, C], and old zeta, alpha, Mid with budget 2 give
[alpha, Mid]. -/
theorem c1_planner_priority (cfg : Config) (coreNames : List String)
    (shelf0 : List ShelfEntry) (archive : List ArchiveItem) (now lastRun : Int)
    (ns : List (Int × ArchiveItem)) (os : List ArchiveItem) (out : RunOutput)
    (hclean : ∀ e ∈ shelf0, e.isLink = true ∧ linkRemoved cfg now e = false)
    (hnodup : ((scanMovies archive).map (fun i => i.name)).Nodup)
    (hcl : classify coreNames (JVal.num lastRun) (scanMovies archive) = .ok (ns, os))
    (hrun : mainRun cfg (some (StateFile.valid [("last_run", JVal.num lastRun)]))
        coreNames shelf0 archive now = .ok out) :
    (out.createdNames =
      (((((List.insertionSort newOrder ns).map (fun p => p.2)) ++
          List.insertionSort oldOrder os).map (fun c => c.name)).filter
        (fun n => !((shelf0.map (fun e => e.name)).contains n))).take
        (cfg.maxRotationItems - (shelf0.length : Int)).toNat) ∧
    (∀ o ∈ os, o.name ∈ out.createdNames →
      ∀ p ∈ ns, p.2.name ∈ shelf0.map (fun e => e.name) ∨
        p.2.name ∈ out.createdNames) ∧
    ((mainRun ⟨3, 30⟩ (some (StateFile.valid [("last_run", JVal.num 50)])) [] []
        [⟨"A", 100, true, true⟩, ⟨"B", 200, true, true⟩, ⟨"C", 10, true, true⟩,
         ⟨"D", 20, true, true⟩] 1000).map (fun o => o.createdNames) =
      .ok ["B", "A", "C"]) ∧
    ((mainRun ⟨2, 30⟩ (some (StateFile.valid [("last_run", JVal.num 500)])) [] []
        [⟨"zeta", 100, true, true⟩, ⟨"alpha", 100, true, true⟩,
         ⟨"Mid", 100, true, true⟩] 1000).map (fun o => o.createdNames) =
      .ok ["alpha", "Mid"]) := by
  have hpermNew : (((List.insertionSort newOrder ns).map (fun p => p.2))).Perm
      (ns.map (fun p => p.2)) := (List.perm_insertionSort newOrder ns).map _
  have hpermOld : (List.insertionSort oldOrder os).Perm os :=
    List.perm_insertionSort oldOrder os
  have hperm2 := classify_ok_perm coreNames (JVal.num lastRun) (scanMovies archive)
    ns os hcl
  have hpermAll : ((((List.insertionSort newOrder ns).map (fun p => p.2))) ++
      List.insertionSort oldOrder os).Perm
      ((scanMovies archive).filter (fun i => !(coreNames.contains i.name) && i.present)) :=
    (hpermNew.append hpermOld).trans hperm2
  have hnamesperm := hpermAll.map (fun c => c.name)
  have hsubnodup : ((((scanMovies archive).filter
      (fun i => !(coreNames.contains i.name) && i.present)).map
        (fun c => c.name))).Nodup := by
    have hsub : List.Sublist ((scanMovies archive).filter
        (fun i => !(coreNames.contains i.name) && i.present)) (scanMovies archive) :=
      List.filter_sublist _
    exact hnodup.sublist (hsub.map _)
  have hnodupAll := hnamesperm.nodup_iff.mpr hsubnodup
  have hnodupAll2 := hnodupAll
  rw [List.map_append] at hnodupAll2
  obtain ⟨-, -, hdisj⟩ := List.nodup_append.mp hnodupAll2
  obtain ⟨state, ns2, os2, hls, hcl2, hout⟩ := mainRun_ok_elim hrun
  have hstate : state = [("last_run", JVal.num lastRun)] := by
    have h := hls.symm
    rw [show loadState (some (StateFile.valid [("last_run", JVal.num lastRun)])) =
      .ok [("last_run", JVal.num lastRun)] from rfl] at h
    simpa using h
  have hget : dictGet state "last_run" (JVal.num 0) = JVal.num lastRun := by
    rw [hstate]; rfl
  rw [hget, hcl] at hcl2
  simp only [Except.ok.injEq, Prod.mk.injEq] at hcl2
  obtain ⟨hns, hos⟩ := hcl2
  subst hns
  subst hos
  have heq : out.createdNames =
      (((((List.insertionSort newOrder ns).map (fun p => p.2)) ++
          List.insertionSort oldOrder os).map (fun c => c.name)).filter
        (fun n => !((shelf0.map (fun e => e.name)).contains n))).take
        (cfg.maxRotationItems - (shelf0.length : Int)).toNat := by
    rw [hout, hstate]
    exact runCore_clean cfg _ shelf0 ns os now hclean hnodupAll
  refine ⟨heq, ?_, rfl, rfl⟩
  intro o ho hoc p hp
  by_cases hpln : p.2.name ∈ shelf0.map (fun e => e.name)
  · exact Or.inl hpln
  · right
    rw [List.map_append, List.filter_append] at heq
    have honew : o.name ∉ ((((List.insertionSort newOrder ns).map
        (fun p => p.2)).map (fun c => c.name)).filter
        (fun n => !((shelf0.map (fun e => e.name)).contains n))) := by
      intro hmem
      have h1 := List.mem_of_mem_filter hmem
      have h2 : o.name ∈ (List.insertionSort oldOrder os).map (fun c => c.name) :=
        List.mem_map_of_mem _ ((List.mem_insertionSort oldOrder).mpr ho)
      exact hdisj h1 h2
    have hpmem : p.2.name ∈ ((((List.insertionSort newOrder ns).map
        (fun p => p.2)).map (fun c => c.name)).filter
        (fun n => !((shelf0.map (fun e => e.name)).contains n))) := by
      refine List.mem_filter.mpr ⟨?_, ?_⟩
      · exact List.mem_map_of_mem _ (List.mem_map_of_mem _
          ((List.mem_insertionSort newOrder).mpr hp))
      · simpa using hpln
    rw [heq] at hoc ⊢
    exact left_subset_take_of_mem_right hoc honew _ hpmem

/-- C2 witness: a concrete run that fills the single slot. -/
theorem c2_capacity_witness :
    ((listRotationLinks [(⟨"B", true, 100, 20, true, true⟩ : ShelfEntry)]).length : Int) ≤
      (1 : Int) :=
  (c2_capacity ⟨1, 30⟩ none [] [] [⟨"A", 10, true, true⟩, ⟨"B", 20, true, true⟩] 100
    ⟨[⟨"B", true, 100, 20, true, true⟩], 0, ["B"], [("last_run", JVal.num 100)]⟩
    rfl (by decide)).1

/-- C8 witness: a concrete run where the core name K is skipped and only
A is linked. -/
theorem c8_core_exclusion_witness : ("A" : String) ∉ (["K"] : List String) :=
  c8_core_exclusion ⟨5, 30⟩ none ["K"] []
    [⟨"A", 10, true, true⟩, ⟨"K", 20, true, true⟩] 100
    ⟨[⟨"A", true, 100, 10, true, true⟩], 0, ["A"], [("last_run", JVal.num 100)]⟩
    rfl "A" (by decide)

/-- C10 witness: a state object with no last_run key yields the
default 0. -/
theorem c10_missing_last_run_key_witness :
    dictGet [("note", JVal.str "x")] "last_run" (JVal.num 0) = JVal.num 0 :=
  (c10_missing_last_run_key defaultConfig [] [] [] 7 [("note", JVal.str "x")]
    (by decide)).1

/-- C5 witness: re-running the concrete single-slot run creates
nothing. -/
theorem c5_idempotent_witness :
    ∃ out2, mainRun ⟨1, 30⟩ (some (StateFile.valid [("last_run", JVal.num 100)])) []
        [⟨"B", true, 100, 20, true, true⟩]
        [⟨"A", 10, true, true⟩, ⟨"B", 20, true, true⟩] 150 = .ok out2 ∧
      out2.createdNames = [] ∧ out2.shelf = [⟨"B", true, 100, 20, true, true⟩] :=
  c5_idempotent ⟨1, 30⟩ none [] [] [⟨"A", 10, true, true⟩, ⟨"B", 20, true, true⟩] 100 150
    ⟨[⟨"B", true, 100, 20, true, true⟩], 0, ["B"], [("last_run", JVal.num 100)]⟩
    rfl (by decide)

/-- C1 witness: the planner equation at an empty world. -/
theorem c1_planner_priority_witness :
    (⟨[], 0, [], [("last_run", JVal.num 5)]⟩ : RunOutput).createdNames =
      (((((List.insertionSort newOrder ([] : List (Int × ArchiveItem))).map
          (fun p => p.2)) ++
          List.insertionSort oldOrder ([] : List ArchiveItem)).map
          (fun c => c.name)).filter
        (fun n => !((([] : List ShelfEntry).map (fun e => e.name)).contains n))).take
        ((⟨2, 30⟩ : Config).maxRotationItems - (([] : List ShelfEntry).length : Int)).toNat :=
  (c1_planner_priority ⟨2, 30⟩ [] [] [] 5 0 [] []
    ⟨[], 0, [], [("last_run", JVal.num 5)]⟩
    (fun e he => absurd he (List.not_mem_nil e)) (by decide) rfl rfl).1

end RotateMedia
